import Mathlib

/-!
Formal model of the detection-evaluation core in `src/eval.py`
(UCR-CISL/EE260_LAB1): the geometry IoU wrapper (`compute_iou`), the
per-frame matcher (`caluclate_tp_fp`), the statistics accumulator
(`result_stat` dictionaries, one bucket per IoU threshold), the VOC
average-precision integrator (`voc_ap`) and the AP engine
(`calculate_ap`).

Modelling conventions:
* Python floats are modelled by `ℚ` (the claims under study concern
  control flow, list structure and exact identities, not rounding).
* A Python exception (ZeroDivisionError, IndexError, AssertionError) is
  modelled by `Option.none`; for `calculate_ap`, which can mutate its
  bucket before an exception is raised, the post-state of the bucket is
  returned alongside the optional result.
* Shapely polygons are abstracted by a type parameter `P`; shapely's
  intersection-area and union-area primitives (external library calls)
  are parameters `interArea`, `unionArea`, and the IoU value used by the
  matcher is a parameter `iou`.
* `np.argsort(-score)` is modelled by `argsortDesc`, an insertion sort
  of the index list `[0, ..., n-1]` by descending looked-up score.
  NumPy's default `quicksort` kind leaves the relative order of equal
  scores unspecified; `argsortDesc` fixes the stable order, and no
  theorem below about claims other than tie-breaking depends on the
  order chosen among equal scores.
* `np.argmax` (first index attaining the maximum) is `argmaxIdx`,
  `np.max` of a nonempty array is `maxList`.
-/

/-- Maximum of a list of rationals; `np.max`. The value on `[]` is junk
(numpy raises there); every use below is guarded by a nonemptiness test,
exactly as the source short-circuits `len(gt_polygon_list) == 0 or
np.max(ious) < iou_thresh`. -/
def maxList : List ℚ → ℚ
  | [] => 0
  | [x] => x
  | x :: y :: xs => max x (maxList (y :: xs))

/-- First index attaining the maximum of a list; `np.argmax`. -/
def argmaxIdx : List ℚ → ℕ
  | [] => 0
  | x :: xs =>
    if xs = [] then 0
    else if maxList xs ≤ x then 0 else argmaxIdx xs + 1

/-- Suffix maxima: the backward scan
`for i in range(len(mpre)-2, -1, -1): mpre[i] = max(mpre[i], mpre[i+1])`
of `voc_ap`. -/
def suffixMax : List ℚ → List ℚ
  | [] => []
  | x :: xs =>
    match suffixMax xs with
    | [] => [x]
    | y :: ys => max x y :: y :: ys

/-- The `voc_ap` summation: walks consecutive pairs of `mrec` with the
aligned `mpre` entries and adds `(mrec[i] - mrec[i-1]) * mpre[i]` at the
indices `i` collected in `i_list` (those where `mrec[i] != mrec[i-1]`). -/
def apSum : List ℚ → List ℚ → ℚ
  | r0 :: r1 :: rs, _ :: p1 :: ps =>
    (if r1 ≠ r0 then (r1 - r0) * p1 else 0) + apSum (r1 :: rs) (p1 :: ps)
  | _, _ => 0

/-- `voc_ap(rec, prec)` of `src/eval.py`: sentinels `0.0`/`1.0` around
`rec` and `0.0`/`0.0` around `prec`, backward max envelope on the
precisions, then the interval sum over indices where recall changes.
Returns `(ap, mrec, mpre)` exactly as the source does. -/
def voc_ap (rec prec : List ℚ) : ℚ × List ℚ × List ℚ :=
  let mrec : List ℚ := 0 :: (rec ++ [1])
  let mpre : List ℚ := suffixMax (0 :: (prec ++ [0]))
  (apSum mrec mpre, mrec, mpre)

/-- Running prefix sums, the in-place
`for idx, val in enumerate(l): l[idx] += cumsum; cumsum += val` loops of
`calculate_ap`. -/
def cumAux (acc : ℕ) : List ℕ → List ℕ
  | [] => []
  | x :: xs => (acc + x) :: cumAux (acc + x) xs

/-- Prefix-sum list of a list of counters. -/
def cumsumList (l : List ℕ) : List ℕ := cumAux 0 l

/-- Option-valued map: `none` as soon as any element fails, modelling a
Python exception escaping a loop or comprehension. -/
def mapOpt (f : α → Option β) : List α → Option (List β)
  | [] => some []
  | a :: rest =>
    match f a, mapOpt f rest with
    | some b, some bs => some (b :: bs)
    | _, _ => none

/-- `compute_iou(box, boxes)` of `src/eval.py`: for each candidate `b`,
`box.intersection(b).area / box.union(b).area`.  The shapely area
primitives are abstracted as `interArea`/`unionArea`; the division is
performed unguarded in the source, so a zero union area raises
ZeroDivisionError, modelled by `none`. -/
def compute_iou (interArea unionArea : P → P → ℚ) (box : P) (boxes : List P) :
    Option (List ℚ) :=
  mapOpt (fun b =>
    if unionArea box b = 0 then none
    else some (interArea box b / unionArea box b)) boxes

/-- Descending-score argsort, modelling `np.argsort(-det_score)`:
indices `[0, ..., n-1]` ordered so that looked-up scores are
non-increasing (insertion sort; ties keep the lower index first). -/
def argsortDesc (scores : List ℚ) : List ℕ :=
  List.insertionSort (fun i j => scores.getD j 0 ≤ scores.getD i 0)
    (List.range scores.length)

/-- One threshold bucket of the `result_stat` dictionary:
`{'score': [...], 'fp': [...], 'tp': [...], 'gt': n}`. -/
structure ResultStat where
  score : List ℚ
  fp : List ℕ
  tp : List ℕ
  gt : ℕ
deriving DecidableEq, Repr

/-- The matching loop of `caluclate_tp_fp`: detections are consumed in
the order given (the caller passes them already score-sorted), `gts` is
the mutable `gt_polygon_list`.  Returns the per-frame `fp` and `tp` flag
lists in emission order and the remaining unmatched ground truth. -/
def matchLoop (iou : P → P → ℚ) (thresh : ℚ) :
    List P → List P → List ℕ × List ℕ × List P
  | [], gts => ([], [], gts)
  | d :: ds, gts =>
    let ious := gts.map (iou d)
    if gts.length = 0 ∨ maxList ious < thresh then
      let r := matchLoop iou thresh ds gts
      (1 :: r.1, 0 :: r.2.1, r.2.2)
    else
      let r := matchLoop iou thresh ds (gts.eraseIdx (argmaxIdx ious))
      (0 :: r.1, 1 :: r.2.1, r.2.2)

/-- The detection polygons in processing order:
`det_polygon_list[score_order_descend[i]]` for `i` over the score
indices.  `none` models the IndexError raised when a sorted score index
falls outside the polygon list (more scores than boxes). -/
def sortedDets (boxes : List P) (scores : List ℚ) : Option (List P) :=
  mapOpt (fun i => boxes.get? i) (argsortDesc scores)

/-- `caluclate_tp_fp(det_boxes, det_score, gt_boxes, result_stat,
iou_thresh)` of `src/eval.py`, acting on one threshold bucket.  With
`det_boxes = None` only the ground-truth count grows; otherwise the
frame's score-sorted scores and the matcher's flags are appended.  All
bucket updates happen after the matching loop in the source, so an
exception inside the loop (modelled `none`) leaves the bucket
unchanged. -/
def caluclate_tp_fp (iou : P → P → ℚ) (det_boxes : Option (List P))
    (det_score : List ℚ) (gt_boxes : List P) (stat : ResultStat)
    (thresh : ℚ) : Option ResultStat :=
  match det_boxes with
  | none =>
    some { stat with
            fp := stat.fp ++ []
            tp := stat.tp ++ []
            gt := stat.gt + gt_boxes.length }
  | some boxes =>
    match sortedDets boxes det_score with
    | none => none
    | some dets =>
      let r := matchLoop iou thresh dets gt_boxes
      let sortedScore := (argsortDesc det_score).map
        (fun i => det_score.getD i 0)
      some { score := stat.score ++ sortedScore
             fp := stat.fp ++ r.1
             tp := stat.tp ++ r.2.1
             gt := stat.gt + gt_boxes.length }

/-- A frame's worth of caller input to `caluclate_tp_fp`. -/
structure Frame (P : Type) where
  det : Option (List P)
  scores : List ℚ
  gts : List P

/-- Folding `caluclate_tp_fp` over a run of frames for one threshold
bucket, stopping at the first exception. -/
def runFrames (iou : P → P → ℚ) (thresh : ℚ) :
    ResultStat → List (Frame P) → Option ResultStat
  | s, [] => some s
  | s, f :: fs =>
    match caluclate_tp_fp iou f.det f.scores f.gts s thresh with
    | none => none
    | some s' => runFrames iou thresh s' fs

/-- The empty bucket `{'score': [], 'fp': [], 'tp': [], 'gt': 0}`. -/
def emptyStat : ResultStat := ⟨[], [], [], 0⟩

/-- `calculate_ap(result_stat, iou, global_sort_detections)` of
`src/eval.py` on one bucket.  Returns the post-call bucket state paired
with the optional `(ap, mrec, mpre)` result (`none` = exception).
With `global_sort = true` the stored lists are copied into numpy arrays,
reordered by score and cumulated locally, so the bucket is untouched;
with `global_sort = false` the names `fp`/`tp` alias the stored lists
and the in-place cumulative-sum loops overwrite the bucket's `fp` and
`tp`.  The recall loop divides by `gt` and raises ZeroDivisionError when
`gt = 0` and at least one prediction is stored; the precision loop
divides by `fp[i] + tp[i]`. -/
def calculate_ap (stat : ResultStat) (global_sort : Bool) :
    ResultStat × Option (ℚ × List ℚ × List ℚ) :=
  if global_sort then
    if stat.fp.length = stat.tp.length ∧ stat.tp.length = stat.score.length
    then
      let perm := argsortDesc stat.score
      let fp := cumsumList (perm.map (fun i => stat.fp.getD i 0))
      let tp := cumsumList (perm.map (fun i => stat.tp.getD i 0))
      if tp ≠ [] ∧ stat.gt = 0 then (stat, none)
      else if (fp.zip tp).any (fun p => p.1 + p.2 == 0) then (stat, none)
      else
        let rec_ := tp.map (fun t => (t : ℚ) / (stat.gt : ℚ))
        let prec := (fp.zip tp).map
          (fun p => (p.2 : ℚ) / ((p.1 : ℚ) + (p.2 : ℚ)))
        (stat, some (voc_ap rec_ prec))
    else (stat, none)
  else
    if stat.fp.length = stat.tp.length then
      let fp := cumsumList stat.fp
      let tp := cumsumList stat.tp
      let stat' : ResultStat := { stat with fp := fp, tp := tp }
      if tp ≠ [] ∧ stat.gt = 0 then (stat', none)
      else if (fp.zip tp).any (fun p => p.1 + p.2 == 0) then (stat', none)
      else
        let rec_ := tp.map (fun t => (t : ℚ) / (stat.gt : ℚ))
        let prec := (fp.zip tp).map
          (fun p => (p.2 : ℚ) / ((p.1 : ℚ) + (p.2 : ℚ)))
        (stat', some (voc_ap rec_ prec))
    else (stat, none)
/-! ### Properties of `maxList` and `argmaxIdx` -/

theorem le_maxList {l : List ℚ} {x : ℚ} (hx : x ∈ l) : x ≤ maxList l := by
  induction l with
  | nil => cases hx
  | cons a t ih =>
    cases t with
    | nil =>
      rw [List.mem_singleton] at hx
      subst hx; simp [maxList]
    | cons b t' =>
      rcases List.mem_cons.mp hx with h | h
      · subst h; simp [maxList]
      · exact le_trans (ih h) (by simp [maxList])

theorem maxList_le {l : List ℚ} {c : ℚ} (hne : l ≠ []) (h : ∀ x ∈ l, x ≤ c) :
    maxList l ≤ c := by
  induction l with
  | nil => exact absurd rfl hne
  | cons a t ih =>
    cases t with
    | nil => simpa [maxList] using h a (by simp)
    | cons b t' =>
      have h1 : a ≤ c := h a (by simp)
      have h2 : maxList (b :: t') ≤ c :=
        ih (by simp) (fun x hx => h x (List.mem_cons_of_mem _ hx))
      simp [maxList, h1, h2]

theorem argmaxIdx_lt_length {l : List ℚ} (hne : l ≠ []) :
    argmaxIdx l < l.length := by
  induction l with
  | nil => exact absurd rfl hne
  | cons a t ih =>
    by_cases ht : t = []
    · subst ht; simp [argmaxIdx]
    · by_cases hm : maxList t ≤ a
      · simp [argmaxIdx, ht, hm]
      · simpa [argmaxIdx, ht, hm, Nat.succ_lt_succ_iff] using ih ht

theorem maxList_cons_of_lt {a : ℚ} {t : List ℚ} (ht : t ≠ [])
    (hm : ¬maxList t ≤ a) : maxList (a :: t) = maxList t := by
  obtain ⟨b, t', rfl⟩ := List.exists_cons_of_ne_nil ht
  exact max_eq_right (le_of_lt (lt_of_not_le hm))

theorem argmaxIdx_getD {l : List ℚ} (hne : l ≠ []) :
    l.getD (argmaxIdx l) 0 = maxList l := by
  induction l with
  | nil => exact absurd rfl hne
  | cons a t ih =>
    by_cases ht : t = []
    · subst ht; simp [argmaxIdx, maxList]
    · by_cases hm : maxList t ≤ a
      · obtain ⟨b, t', rfl⟩ := List.exists_cons_of_ne_nil ht
        simp [argmaxIdx, ht, hm, maxList, max_eq_left hm]
      · simp only [argmaxIdx, if_neg ht, if_neg hm]
        rw [List.getD_cons_succ, ih ht, maxList_cons_of_lt ht hm]

theorem argmaxIdx_least {l : List ℚ} {k : ℕ} (hk : k < argmaxIdx l) :
    l.getD k 0 < maxList l := by
  induction l generalizing k with
  | nil => simp [argmaxIdx] at hk
  | cons a t ih =>
    by_cases ht : t = []
    · simp [argmaxIdx, ht] at hk
    · by_cases hm : maxList t ≤ a
      · simp [argmaxIdx, ht, hm] at hk
      · simp only [argmaxIdx, if_neg ht, if_neg hm] at hk
        rw [maxList_cons_of_lt ht hm]
        cases k with
        | zero => simpa using lt_of_not_le hm
        | succ k' =>
          rw [List.getD_cons_succ]
          exact ih (Nat.lt_of_succ_lt_succ hk)

/-! ### Properties of `argsortDesc` -/

theorem argsortDesc_perm (scores : List ℚ) :
    List.Perm (argsortDesc scores) (List.range scores.length) :=
  List.perm_insertionSort _ _

theorem argsortDesc_length (scores : List ℚ) :
    (argsortDesc scores).length = scores.length := by
  simpa using (argsortDesc_perm scores).length_eq

theorem argsortDesc_mem_lt {scores : List ℚ} {i : ℕ}
    (hi : i ∈ argsortDesc scores) : i < scores.length := by
  have := (argsortDesc_perm scores).mem_iff.mp hi
  simpa using this

theorem argsortDesc_sorted (scores : List ℚ) :
    (argsortDesc scores).Sorted
      (fun i j => scores.getD j 0 ≤ scores.getD i 0) := by
  haveI : IsTotal ℕ (fun i j => scores.getD j 0 ≤ scores.getD i 0) :=
    ⟨fun a b => le_total (scores.getD b 0) (scores.getD a 0)⟩
  haveI : IsTrans ℕ (fun i j => scores.getD j 0 ≤ scores.getD i 0) :=
    ⟨fun _ _ _ hab hbc => le_trans hbc hab⟩
  exact List.sorted_insertionSort _ _

theorem sortedScores_sorted (scores : List ℚ) :
    ((argsortDesc scores).map (fun i => scores.getD i 0)).Sorted
      (fun a b => b ≤ a) :=
  List.Pairwise.map _ (fun _ _ h => h) (argsortDesc_sorted scores)

/-! ### Properties of `mapOpt`, `sortedDets` and `matchLoop` -/

theorem mapOpt_some_of_isSome {f : α → Option β} {l : List α}
    (h : ∀ a ∈ l, (f a).isSome) :
    ∃ bs, mapOpt f l = some bs ∧ bs.length = l.length := by
  induction l with
  | nil => exact ⟨[], rfl, rfl⟩
  | cons a rest ih =>
    obtain ⟨b, hb⟩ := Option.isSome_iff_exists.mp (h a (by simp))
    obtain ⟨bs, hbs, hlen⟩ := ih (fun x hx => h x (List.mem_cons_of_mem _ hx))
    exact ⟨b :: bs, by simp [mapOpt, hb, hbs], by simp [hlen]⟩

theorem mapOpt_none_of_mem {f : α → Option β} {l : List α} {a : α}
    (ha : a ∈ l) (hf : f a = none) : mapOpt f l = none := by
  induction l with
  | nil => cases ha
  | cons x rest ih =>
    rcases List.mem_cons.mp ha with h | h
    · subst h; simp [mapOpt, hf]
    · cases hx : f x with
      | none => simp [mapOpt, hx]
      | some b => simp [mapOpt, hx, ih h]

theorem sortedDets_some {boxes : List P} {scores : List ℚ}
    (h : scores.length ≤ boxes.length) :
    ∃ dets, sortedDets boxes scores = some dets ∧
      dets.length = scores.length := by
  obtain ⟨dets, hd, hlen⟩ :=
    mapOpt_some_of_isSome (f := fun i => boxes.get? i)
      (l := argsortDesc scores)
      (fun i hi => by
        rw [Option.isSome_iff_exists]
        exact ⟨_, List.get?_eq_get (lt_of_lt_of_le (argsortDesc_mem_lt hi) h)⟩)
  exact ⟨dets, hd, by rw [hlen, argsortDesc_length]⟩

theorem matchLoop_cons_pos {iou : P → P → ℚ} {thresh : ℚ} {d : P}
    {ds gts : List P}
    (hc : gts.length = 0 ∨ maxList (gts.map (iou d)) < thresh) :
    matchLoop iou thresh (d :: ds) gts =
      (1 :: (matchLoop iou thresh ds gts).1,
       0 :: (matchLoop iou thresh ds gts).2.1,
       (matchLoop iou thresh ds gts).2.2) := by
  simp only [matchLoop]
  rw [if_pos hc]

theorem matchLoop_cons_neg {iou : P → P → ℚ} {thresh : ℚ} {d : P}
    {ds gts : List P}
    (hc : ¬(gts.length = 0 ∨ maxList (gts.map (iou d)) < thresh)) :
    matchLoop iou thresh (d :: ds) gts =
      (0 :: (matchLoop iou thresh ds
          (gts.eraseIdx (argmaxIdx (gts.map (iou d))))).1,
       1 :: (matchLoop iou thresh ds
          (gts.eraseIdx (argmaxIdx (gts.map (iou d))))).2.1,
       (matchLoop iou thresh ds
          (gts.eraseIdx (argmaxIdx (gts.map (iou d))))).2.2) := by
  simp only [matchLoop]
  rw [if_neg hc]

theorem matchLoop_lengths (iou : P → P → ℚ) (thresh : ℚ)
    (ds gts : List P) :
    (matchLoop iou thresh ds gts).1.length = ds.length ∧
      (matchLoop iou thresh ds gts).2.1.length = ds.length := by
  induction ds generalizing gts with
  | nil => simp [matchLoop]
  | cons d ds ih =>
    by_cases hc : gts.length = 0 ∨ maxList (gts.map (iou d)) < thresh
    · rw [matchLoop_cons_pos hc]
      simp [ih]
    · rw [matchLoop_cons_neg hc]
      simp [ih]

theorem matchLoop_flags (iou : P → P → ℚ) (thresh : ℚ)
    (ds gts : List P) (i : ℕ) (hi : i < ds.length) :
    (matchLoop iou thresh ds gts).1.getD i 0 +
      (matchLoop iou thresh ds gts).2.1.getD i 0 = 1 := by
  induction ds generalizing gts i with
  | nil => cases hi
  | cons d ds ih =>
    by_cases hc : gts.length = 0 ∨ maxList (gts.map (iou d)) < thresh
    · rw [matchLoop_cons_pos hc]
      cases i with
      | zero => simp
      | succ i' =>
        simp only [List.getD_cons_succ]
        exact ih _ _ (Nat.lt_of_succ_lt_succ hi)
    · rw [matchLoop_cons_neg hc]
      cases i with
      | zero => simp
      | succ i' =>
        simp only [List.getD_cons_succ]
        exact ih _ _ (Nat.lt_of_succ_lt_succ hi)

theorem matchLoop_sum_tp_le (iou : P → P → ℚ) (thresh : ℚ)
    (ds gts : List P) :
    (matchLoop iou thresh ds gts).2.1.sum ≤ gts.length := by
  induction ds generalizing gts with
  | nil => simp [matchLoop]
  | cons d ds ih =>
    by_cases hc : gts.length = 0 ∨ maxList (gts.map (iou d)) < thresh
    · rw [matchLoop_cons_pos hc]
      simpa using ih gts
    · rw [matchLoop_cons_neg hc]
      push_neg at hc
      have hne : gts ≠ [] := by
        intro h; exact hc.1 (by simp [h])
      have hlt : argmaxIdx (gts.map (iou d)) < gts.length := by
        have := argmaxIdx_lt_length (l := gts.map (iou d))
          (by simpa using hne)
        simpa using this
      have herase :
          (gts.eraseIdx (argmaxIdx (gts.map (iou d)))).length =
            gts.length - 1 := by
        rw [List.length_eraseIdx]
        simp [hlt]
      have := ih (gts.eraseIdx (argmaxIdx (gts.map (iou d))))
      rw [herase] at this
      simp only [List.sum_cons]
      omega

theorem matchLoop_sum_add (iou : P → P → ℚ) (thresh : ℚ)
    (ds gts : List P) :
    (matchLoop iou thresh ds gts).2.1.sum +
      (matchLoop iou thresh ds gts).1.sum = ds.length := by
  induction ds generalizing gts with
  | nil => simp [matchLoop]
  | cons d ds ih =>
    by_cases hc : gts.length = 0 ∨ maxList (gts.map (iou d)) < thresh
    · rw [matchLoop_cons_pos hc]
      have := ih gts
      simp only [List.sum_cons, List.length_cons]
      omega
    · rw [matchLoop_cons_neg hc]
      have := ih (gts.eraseIdx (argmaxIdx (gts.map (iou d))))
      simp only [List.sum_cons, List.length_cons]
      omega

theorem matchLoop_rem_sublist (iou : P → P → ℚ) (thresh : ℚ)
    (ds gts : List P) :
    List.Sublist (matchLoop iou thresh ds gts).2.2 gts := by
  induction ds generalizing gts with
  | nil => simp [matchLoop]
  | cons d ds ih =>
    by_cases hc : gts.length = 0 ∨ maxList (gts.map (iou d)) < thresh
    · rw [matchLoop_cons_pos hc]
      exact ih gts
    · rw [matchLoop_cons_neg hc]
      exact (ih _).trans (List.eraseIdx_sublist _ _)

theorem matchLoop_nil_gts (iou : P → P → ℚ) (thresh : ℚ) (ds : List P) :
    matchLoop iou thresh ds [] =
      (List.replicate ds.length 1, List.replicate ds.length 0, []) := by
  induction ds with
  | nil => simp [matchLoop]
  | cons d ds ih =>
    rw [matchLoop_cons_pos (by simp)]
    simp [ih, List.replicate_succ]

/-! ### The full matcher call on a bucket -/

theorem tp_fp_none (iou : P → P → ℚ) (det_score : List ℚ)
    (gt_boxes : List P) (stat : ResultStat) (thresh : ℚ) :
    caluclate_tp_fp iou none det_score gt_boxes stat thresh =
      some { stat with gt := stat.gt + gt_boxes.length } := by
  simp [caluclate_tp_fp]

theorem tp_fp_some {iou : P → P → ℚ} {boxes : List P} {det_score : List ℚ}
    (gt_boxes : List P) (stat : ResultStat) (thresh : ℚ)
    (hlen : det_score.length = boxes.length) :
    ∃ dets, sortedDets boxes det_score = some dets ∧
      dets.length = det_score.length ∧
      caluclate_tp_fp iou (some boxes) det_score gt_boxes stat thresh =
        some { score := stat.score ++
                 (argsortDesc det_score).map (fun i => det_score.getD i 0)
               fp := stat.fp ++ (matchLoop iou thresh dets gt_boxes).1
               tp := stat.tp ++ (matchLoop iou thresh dets gt_boxes).2.1
               gt := stat.gt + gt_boxes.length } := by
  obtain ⟨dets, hd, hdl⟩ := sortedDets_some (le_of_eq hlen)
  refine ⟨dets, hd, hdl, ?_⟩
  simp [caluclate_tp_fp, hd]

/-- The `ResultStatistics` invariant of the spec: the three parallel
sequences have equal lengths and each stored prediction is flagged
exactly one of TP or FP. -/
def statInv (s : ResultStat) : Prop :=
  s.score.length = s.tp.length ∧ s.tp.length = s.fp.length ∧
    ∀ i < s.tp.length, s.tp.getD i 0 + s.fp.getD i 0 = 1

theorem statInv_empty : statInv emptyStat := by
  refine ⟨rfl, rfl, ?_⟩
  intro i hi
  simp [emptyStat] at hi

theorem tp_fp_preserves_inv {iou : P → P → ℚ} {det_boxes : Option (List P)}
    {det_score : List ℚ} {gt_boxes : List P} {stat : ResultStat}
    {thresh : ℚ} (hinv : statInv stat)
    (hwf : ∀ boxes, det_boxes = some boxes →
      det_score.length = boxes.length) :
    ∃ s', caluclate_tp_fp iou det_boxes det_score gt_boxes stat thresh =
        some s' ∧ statInv s' := by
  cases det_boxes with
  | none =>
    refine ⟨_, tp_fp_none iou det_score gt_boxes stat thresh, ?_⟩
    exact ⟨hinv.1, hinv.2.1, hinv.2.2⟩
  | some boxes =>
    obtain ⟨dets, _, hdl, heq⟩ :=
      @tp_fp_some P iou boxes det_score gt_boxes stat thresh (hwf boxes rfl)
    refine ⟨_, heq, ?_, ?_, ?_⟩
    · have hfp := (matchLoop_lengths iou thresh dets gt_boxes).1
      have htp := (matchLoop_lengths iou thresh dets gt_boxes).2
      have h1 := hinv.1
      dsimp only
      simp only [List.length_append, List.length_map, argsortDesc_length,
        htp, hdl]
      omega
    · have hfp := (matchLoop_lengths iou thresh dets gt_boxes).1
      have htp := (matchLoop_lengths iou thresh dets gt_boxes).2
      have h2 := hinv.2.1
      dsimp only
      simp only [List.length_append, htp, hfp, hdl]
      omega
    · intro i hi
      have hfp := (matchLoop_lengths iou thresh dets gt_boxes).1
      have htp := (matchLoop_lengths iou thresh dets gt_boxes).2
      dsimp only at hi ⊢
      simp only [List.length_append, htp] at hi
      have h21 := hinv.2.1
      by_cases hlt : i < stat.tp.length
      · rw [List.getD_append _ _ _ _ hlt,
          List.getD_append _ _ _ _ (by omega : i < stat.fp.length)]
        exact hinv.2.2 i hlt
      · have h1 : stat.tp.length ≤ i := le_of_not_lt hlt
        have h2 : stat.fp.length ≤ i := by
          have := hinv.2.1
          omega
        rw [List.getD_append_right _ _ _ _ h1,
          List.getD_append_right _ _ _ _ h2]
        have := hinv.2.1
        have hflag := matchLoop_flags iou thresh dets gt_boxes
          (i - stat.tp.length) (by omega)
        have hsub : i - stat.fp.length = i - stat.tp.length := by omega
        rw [hsub]
        omega

/-! ### The precision envelope: `suffixMax` against the spec's wording -/

/-- Spec-side formulation of step 5's envelope: replace each precision
value with the maximum of itself and all precision values at
equal-or-greater index. -/
def specEnvelope (l : List ℚ) : List ℚ :=
  (List.range l.length).map (fun i => maxList (l.drop i))

theorem maxList_cons {x : ℚ} {xs : List ℚ} (h : xs ≠ []) :
    maxList (x :: xs) = max x (maxList xs) := by
  obtain ⟨b, t, rfl⟩ := List.exists_cons_of_ne_nil h
  rfl

theorem suffixMax_head {l : List ℚ} (h : l ≠ []) :
    ∃ ys, suffixMax l = maxList l :: ys := by
  induction l with
  | nil => exact absurd rfl h
  | cons x xs ih =>
    cases hxs : xs with
    | nil => exact ⟨[], by subst hxs; rfl⟩
    | cons b t =>
      subst hxs
      obtain ⟨ys, hys⟩ := ih (by simp)
      refine ⟨maxList (b :: t) :: ys, ?_⟩
      conv_lhs => rw [suffixMax, hys]
      rw [@maxList_cons x (b :: t) (by simp)]

theorem suffixMax_cons {x : ℚ} {xs : List ℚ} (h : xs ≠ []) :
    suffixMax (x :: xs) = max x (maxList xs) :: suffixMax xs := by
  obtain ⟨ys, hys⟩ := suffixMax_head h
  conv_lhs => rw [suffixMax, hys]
  rw [hys]

theorem length_suffixMax (l : List ℚ) : (suffixMax l).length = l.length := by
  induction l with
  | nil => rfl
  | cons x xs ih =>
    cases hxs : xs with
    | nil => rfl
    | cons b t =>
      subst hxs
      rw [@suffixMax_cons x (b :: t) (by simp)]
      simpa using ih

theorem suffixMax_ne_nil {l : List ℚ} (h : l ≠ []) : suffixMax l ≠ [] := by
  intro hc
  have := length_suffixMax l
  rw [hc] at this
  exact h (List.length_eq_zero.mp this.symm)

theorem specEnvelope_cons (x : ℚ) (xs : List ℚ) :
    specEnvelope (x :: xs) = maxList (x :: xs) :: specEnvelope xs := by
  simp only [specEnvelope, List.length_cons, List.range_succ_eq_map,
    List.map_cons, List.map_map, List.drop_zero, Function.comp_def,
    List.drop_succ_cons]

theorem suffixMax_eq_specEnvelope (l : List ℚ) :
    suffixMax l = specEnvelope l := by
  induction l with
  | nil => rfl
  | cons x xs ih =>
    cases hxs : xs with
    | nil => subst hxs; rfl
    | cons b t =>
      subst hxs
      rw [@suffixMax_cons x (b :: t) (by simp), specEnvelope_cons,
        @maxList_cons x (b :: t) (by simp), ih]

theorem chain'_suffixMax (l : List ℚ) :
    List.Chain' (fun a b => b ≤ a) (suffixMax l) := by
  induction l with
  | nil => simp [suffixMax]
  | cons x xs ih =>
    cases hxs : xs with
    | nil => subst hxs; simp [suffixMax]
    | cons b t =>
      subst hxs
      rw [@suffixMax_cons x (b :: t) (by simp)]
      obtain ⟨ys, hys⟩ := suffixMax_head (l := b :: t) (by simp)
      rw [hys] at ih ⊢
      exact List.Chain'.cons (le_max_right x _) ih

theorem suffixMax_le {l : List ℚ} {c : ℚ} (h : ∀ x ∈ l, x ≤ c) :
    ∀ x ∈ suffixMax l, x ≤ c := by
  induction l with
  | nil => simp [suffixMax]
  | cons a xs ih =>
    cases hxs : xs with
    | nil =>
      subst hxs
      intro z hz
      rw [show suffixMax [a] = [a] from rfl, List.mem_singleton] at hz
      rw [hz]
      exact h a (by simp)
    | cons b t =>
      subst hxs
      rw [@suffixMax_cons a (b :: t) (by simp)]
      intro z hz
      rcases List.mem_cons.mp hz with h1 | h1
      · rw [h1]
        have hm : maxList (b :: t) ≤ c :=
          maxList_le (by simp) (fun w hw => h w (List.mem_cons_of_mem _ hw))
        exact max_le (h a (by simp)) hm
      · exact ih (fun w hw => h w (List.mem_cons_of_mem _ hw)) z h1

theorem getLastD_cons_of_ne_nil {x : ℚ} {xs : List ℚ} (h : xs ≠ []) (d : ℚ) :
    (x :: xs).getLastD d = xs.getLastD d := by
  obtain ⟨b, t, rfl⟩ := List.exists_cons_of_ne_nil h
  rfl

theorem getLastD_le_suffixMax {l : List ℚ} :
    ∀ x ∈ suffixMax l, l.getLastD 0 ≤ x := by
  induction l with
  | nil => simp [suffixMax]
  | cons a xs ih =>
    cases hxs : xs with
    | nil =>
      subst hxs
      intro z hz
      rw [show suffixMax [a] = [a] from rfl, List.mem_singleton] at hz
      rw [hz]
      simp
    | cons b t =>
      subst hxs
      rw [@suffixMax_cons a (b :: t) (by simp),
        @getLastD_cons_of_ne_nil a (b :: t) (by simp)]
      intro z hz
      rcases List.mem_cons.mp hz with h1 | h1
      · rw [h1]
        obtain ⟨ys, hys⟩ := suffixMax_head (l := b :: t) (by simp)
        have := ih (maxList (b :: t)) (by rw [hys]; simp)
        exact le_trans this (le_max_right a _)
      · exact ih z h1

theorem suffixMax_getLastD (l : List ℚ) (d : ℚ) :
    (suffixMax l).getLastD d = l.getLastD d := by
  induction l with
  | nil => rfl
  | cons a xs ih =>
    cases hxs : xs with
    | nil => rfl
    | cons b t =>
      subst hxs
      rw [@suffixMax_cons a (b :: t) (by simp),
        getLastD_cons_of_ne_nil (suffixMax_ne_nil (by simp)) d,
        @getLastD_cons_of_ne_nil a (b :: t) (by simp) d, ih]

theorem getLastD_append_singleton (l : List ℚ) (a d : ℚ) :
    (l ++ [a]).getLastD d = a := by
  induction l generalizing d with
  | nil => rfl
  | cons x xs ih =>
    rw [List.cons_append, getLastD_cons_of_ne_nil (by simp) d, ih]

/-! ### The AP summation against the spec's indexed wording, and bounds -/

/-- Spec-side formulation of the AP sum: over exactly the indices `i`
where the recall value changes, add
`(recall[i] - recall[i-1]) * precision[i]`. -/
def specApSum (mrec mpre : List ℚ) : ℚ :=
  (((List.range mrec.length).filter
      (fun i => decide (1 ≤ i) &&
        decide (mrec.getD i 0 ≠ mrec.getD (i - 1) 0))).map
    (fun i => (mrec.getD i 0 - mrec.getD (i - 1) 0) * mpre.getD i 0)).sum

theorem sum_map_filter_eq_sum_ite (l : List ℕ) (p : ℕ → Bool) (f : ℕ → ℚ) :
    ((l.filter p).map f).sum =
      (l.map (fun i => if p i then f i else 0)).sum := by
  induction l with
  | nil => rfl
  | cons a t ih =>
    cases hp : p a with
    | true => simp [List.filter_cons, hp, ih]
    | false => simp [List.filter_cons, hp, ih]

theorem apTerm_eq (a b c : ℚ) : (if a ≠ b then (a - b) * c else 0) = (a - b) * c := by
  by_cases h : a = b
  · simp [h]
  · simp [h]

theorem apSum_cons_cons (r0 r1 : ℚ) (rs : List ℚ) (p0 p1 : ℚ) (ps : List ℚ) :
    apSum (r0 :: r1 :: rs) (p0 :: p1 :: ps) =
      (r1 - r0) * p1 + apSum (r1 :: rs) (p1 :: ps) := by
  rw [apSum, apTerm_eq]

theorem specApSum_cons (r0 : ℚ) (rs : List ℚ) (p0 : ℚ) (ps : List ℚ) :
    specApSum (r0 :: rs) (p0 :: ps) =
      ((List.range rs.length).map
        (fun j => if decide ((r0 :: rs).getD (j + 1) 0 ≠ (r0 :: rs).getD j 0)
          then ((r0 :: rs).getD (j + 1) 0 - (r0 :: rs).getD j 0) * ps.getD j 0
          else 0)).sum := by
  rw [specApSum, sum_map_filter_eq_sum_ite]
  simp only [List.length_cons, List.range_succ_eq_map, List.map_cons,
    List.map_map, Function.comp_def]
  have h0 : (if (decide (1 ≤ 0) &&
      decide ((r0 :: rs).getD 0 0 ≠ (r0 :: rs).getD (0 - 1) 0)) = true
      then ((r0 :: rs).getD 0 0 - (r0 :: rs).getD (0 - 1) 0) *
        (p0 :: ps).getD 0 0 else 0) = 0 := by
    simp
  rw [List.sum_cons, h0, zero_add]
  congr 1
  apply List.map_congr_left
  intro j hj
  simp only [Nat.add_sub_cancel, decide_eq_true_eq, Nat.succ_eq_add_one]
  have hps : (p0 :: ps).getD (j + 1) 0 = ps.getD j 0 := rfl
  rw [hps]
  by_cases h : (r0 :: rs).getD (j + 1) 0 ≠ (r0 :: rs).getD j 0
  · simp [h]
  · simp [h]

theorem apSum_eq_specApSum :
    ∀ (mrec mpre : List ℚ), mrec.length = mpre.length →
      apSum mrec mpre = specApSum mrec mpre := by
  intro mrec
  induction mrec with
  | nil =>
    intro mpre h
    have : mpre = [] := List.length_eq_zero.mp h.symm
    subst this
    rfl
  | cons r0 tail ih =>
    intro mpre h
    cases mpre with
    | nil => simp at h
    | cons p0 ps0 =>
      cases tail with
      | nil =>
        have : ps0 = [] := by simpa using h.symm
        subst this
        rw [specApSum_cons]
        rfl
      | cons r1 rs =>
        cases ps0 with
        | nil => simp at h
        | cons p1 ps =>
          rw [apSum_cons_cons, ih (p1 :: ps) (by simpa using h),
            specApSum_cons r1 rs p1 ps, specApSum_cons r0 (r1 :: rs) p0 (p1 :: ps)]
          simp only [List.length_cons]
          rw [List.range_succ_eq_map, List.map_cons, List.sum_cons,
            List.map_map]
          have hterm :
              (if decide ((r0 :: r1 :: rs).getD (0 + 1) 0 ≠
                  (r0 :: r1 :: rs).getD 0 0) = true
                then ((r0 :: r1 :: rs).getD (0 + 1) 0 -
                  (r0 :: r1 :: rs).getD 0 0) * (p1 :: ps).getD 0 0
                else 0) = (r1 - r0) * p1 := by
            simp only [List.getD_cons_succ, List.getD_cons_zero,
              decide_eq_true_eq]
            exact apTerm_eq r1 r0 p1
          rw [hterm]
          congr 1

theorem headD_le_of_chain {p1 : ℚ} {ps : List ℚ}
    (hc : List.Chain' (fun a b => b ≤ a) (p1 :: ps)) (h0 : 0 ≤ p1) :
    ps.headD 0 ≤ p1 := by
  cases ps with
  | nil => simpa using h0
  | cons p2 ps' =>
    have := List.chain'_cons.mp hc
    simpa using this.1

theorem apSum_upper :
    ∀ (rs ps : List ℚ) (r0 p0 : ℚ), rs.length = ps.length →
      List.Chain' (fun a b => b ≤ a) ps →
      (∀ x ∈ rs, x ≤ 1) → (∀ x ∈ ps, 0 ≤ x) →
      apSum (r0 :: rs) (p0 :: ps) ≤ ps.headD 0 * (1 - r0) := by
  intro rs
  induction rs with
  | nil =>
    intro ps r0 p0 hlen _ _ _
    have : ps = [] := List.length_eq_zero.mp hlen.symm
    subst this
    simp [apSum]
  | cons r1 rs' ih =>
    intro ps r0 p0 hlen hc hr hp
    cases ps with
    | nil => simp at hlen
    | cons p1 ps' =>
      rw [apSum_cons_cons]
      have hIH := ih ps' r1 p1 (by simpa using hlen)
        (List.Chain'.tail hc)
        (fun x hx => hr x (List.mem_cons_of_mem _ hx))
        (fun x hx => hp x (List.mem_cons_of_mem _ hx))
      have hp1 : 0 ≤ p1 := hp p1 (by simp)
      have hr1 : r1 ≤ 1 := hr r1 (by simp)
      have hhead : ps'.headD 0 ≤ p1 := headD_le_of_chain hc hp1
      have h1 : ps'.headD 0 * (1 - r1) ≤ p1 * (1 - r1) :=
        mul_le_mul_of_nonneg_right hhead (by linarith)
      have h2 : (r1 - r0) * p1 + p1 * (1 - r1) = p1 * (1 - r0) := by ring
      have : (p1 :: ps').headD 0 = p1 := rfl
      rw [this]
      linarith

theorem apSum_lower :
    ∀ (rs ps : List ℚ) (r0 r1 p0 p1 : ℚ), rs.length = ps.length →
      List.Chain' (fun a b => b ≤ a) (p1 :: ps) →
      (∀ x ∈ r1 :: rs, 0 ≤ x) → (∀ x ∈ p1 :: ps, 0 ≤ x) →
      (r1 :: rs).getLastD 0 * (p1 :: ps).getLastD 0 - r0 * p1 ≤
        apSum (r0 :: r1 :: rs) (p0 :: p1 :: ps) := by
  intro rs
  induction rs with
  | nil =>
    intro ps r0 r1 p0 p1 hlen _ _ _
    have : ps = [] := List.length_eq_zero.mp hlen.symm
    subst this
    rw [apSum_cons_cons]
    have h0 : apSum [r1] [p1] = 0 := rfl
    rw [h0]
    have h1 : ([r1] : List ℚ).getLastD 0 = r1 := rfl
    have h2 : ([p1] : List ℚ).getLastD 0 = p1 := rfl
    rw [h1, h2]
    have h3 : (r1 - r0) * p1 + 0 = r1 * p1 - r0 * p1 := by ring
    linarith
  | cons r2 rs' ih =>
    intro ps r0 r1 p0 p1 hlen hc hr hp
    cases ps with
    | nil => simp at hlen
    | cons p2 ps' =>
      rw [apSum_cons_cons]
      have hIH := ih ps' r1 r2 p1 p2 (by simpa using hlen)
        (List.Chain'.tail hc)
        (fun x hx => hr x (List.mem_cons_of_mem _ hx))
        (fun x hx => hp x (List.mem_cons_of_mem _ hx))
      have hr1 : 0 ≤ r1 := hr r1 (by simp)
      have hp12 : p2 ≤ p1 := by
        have := List.chain'_cons.mp hc
        simpa using this.1
      have hL1 : (r1 :: r2 :: rs').getLastD 0 = (r2 :: rs').getLastD 0 :=
        getLastD_cons_of_ne_nil (by simp) 0
      have hL2 : (p1 :: p2 :: ps').getLastD 0 = (p2 :: ps').getLastD 0 :=
        getLastD_cons_of_ne_nil (by simp) 0
      rw [hL1, hL2]
      nlinarith [mul_nonneg hr1 (sub_nonneg.mpr hp12), hIH]

theorem voc_ap_bounds (rec prec : List ℚ) (hlen : rec.length = prec.length)
    (hr : ∀ x ∈ rec, 0 ≤ x ∧ x ≤ 1) (hp : ∀ x ∈ prec, x ≤ 1) :
    0 ≤ (voc_ap rec prec).1 ∧ (voc_ap rec prec).1 ≤ 1 := by
  have hap : (voc_ap rec prec).1 =
      apSum (0 :: (rec ++ [1])) (suffixMax (0 :: (prec ++ [0]))) := rfl
  have hinlast : ((0 : ℚ) :: (prec ++ [0])).getLastD 0 = 0 := by
    rw [@getLastD_cons_of_ne_nil 0 (prec ++ [0]) (by simp) 0,
      getLastD_append_singleton]
  have hpos : ∀ x ∈ suffixMax (0 :: (prec ++ [0])), 0 ≤ x := by
    intro x hx
    have := getLastD_le_suffixMax x hx
    rwa [hinlast] at this
  have hle1 : ∀ x ∈ suffixMax (0 :: (prec ++ [0])), x ≤ 1 := by
    apply suffixMax_le
    intro x hx
    rcases List.mem_cons.mp hx with h1 | h1
    · rw [h1]; norm_num
    · rcases List.mem_append.mp h1 with h2 | h2
      · exact hp x h2
      · rw [List.mem_singleton] at h2
        rw [h2]; norm_num
  have hchain := chain'_suffixMax ((0 : ℚ) :: (prec ++ [0]))
  have hmlen : (suffixMax ((0 : ℚ) :: (prec ++ [0]))).length =
      prec.length + 2 := by
    rw [length_suffixMax]
    simp
  obtain ⟨q0, tl0, hq0⟩ : ∃ q0 tl0,
      suffixMax ((0 : ℚ) :: (prec ++ [0])) = q0 :: tl0 := by
    cases hs : suffixMax ((0 : ℚ) :: (prec ++ [0])) with
    | nil => rw [hs] at hmlen; simp at hmlen
    | cons a t => exact ⟨a, t, rfl⟩
  obtain ⟨q1, qs, hq1⟩ : ∃ q1 qs, tl0 = q1 :: qs := by
    cases tl0 with
    | nil => rw [hq0] at hmlen; simp at hmlen
    | cons a t => exact ⟨a, t, rfl⟩
  subst hq1
  obtain ⟨r1, rs, hrs⟩ : ∃ r1 rs, rec ++ [(1 : ℚ)] = r1 :: rs := by
    cases hx : rec ++ [(1 : ℚ)] with
    | nil => exact absurd hx (by simp)
    | cons a t => exact ⟨a, t, rfl⟩
  have hlenq : (q0 :: q1 :: qs).length = prec.length + 2 := by
    rw [← hq0]; exact hmlen
  have hlen1 : rs.length = qs.length := by
    have h1 : (rec ++ [(1 : ℚ)]).length = rec.length + 1 := by simp
    rw [hrs] at h1
    simp at h1 hlenq
    omega
  have hrentry : ∀ x ∈ rec ++ [(1 : ℚ)], 0 ≤ x ∧ x ≤ 1 := by
    intro x hx
    rcases List.mem_append.mp hx with h1 | h1
    · exact hr x h1
    · rw [List.mem_singleton] at h1
      rw [h1]; norm_num
  have hqmem : ∀ x ∈ q1 :: qs, x ∈ suffixMax ((0 : ℚ) :: (prec ++ [0])) := by
    intro x hx
    rw [hq0]
    exact List.mem_cons_of_mem _ hx
  have hchain1 : List.Chain' (fun a b => b ≤ a) (q1 :: qs) := by
    rw [hq0] at hchain
    exact List.Chain'.tail hchain
  have hlastr : (r1 :: rs).getLastD 0 = 1 := by
    rw [← hrs, getLastD_append_singleton]
  have hlastq : (q1 :: qs).getLastD 0 = 0 := by
    have h1 : (suffixMax ((0 : ℚ) :: (prec ++ [0]))).getLastD 0 = 0 := by
      rw [suffixMax_getLastD, hinlast]
    rw [hq0, @getLastD_cons_of_ne_nil q0 (q1 :: qs) (by simp) 0] at h1
    exact h1
  constructor
  · rw [hap, hq0, hrs]
    have hlow := apSum_lower rs qs 0 r1 q0 q1 hlen1 hchain1
      (by
        intro x hx
        have hx' : x ∈ rec ++ [(1 : ℚ)] := by rw [hrs]; exact hx
        exact (hrentry x hx').1)
      (fun x hx => hpos x (hqmem x hx))
    rw [hlastr, hlastq] at hlow
    linarith
  · rw [hap, hq0, hrs]
    have hlenrq : (r1 :: rs).length = (q1 :: qs).length := by
      simp [hlen1]
    have hup := apSum_upper (r1 :: rs) (q1 :: qs) 0 q0 hlenrq hchain1
      (by
        intro x hx
        have hx' : x ∈ rec ++ [(1 : ℚ)] := by rw [hrs]; exact hx
        exact (hrentry x hx').2)
      (fun x hx => hpos x (hqmem x hx))
    have hq1le : q1 ≤ 1 := hle1 q1 (by rw [hq0]; simp)
    have hhead : ((q1 :: qs) : List ℚ).headD 0 = q1 := rfl
    rw [hhead] at hup
    linarith

/-! ### Bucket-state effects of `calculate_ap` -/

theorem calculate_ap_true_state (stat : ResultStat) :
    (calculate_ap stat true).1 = stat := by
  simp only [calculate_ap, if_true]
  split
  · split
    · rfl
    · split
      · rfl
      · rfl
  · rfl

theorem calculate_ap_false_state (stat : ResultStat)
    (h : stat.fp.length = stat.tp.length) :
    (calculate_ap stat false).1 =
      { stat with fp := cumsumList stat.fp, tp := cumsumList stat.tp } := by
  simp only [calculate_ap, if_false, Bool.false_eq_true]
  rw [if_pos h]
  split
  · rfl
  · split
    · rfl
    · rfl

/-! ### Claim theorems -/

/-- Claim C1: the claim says that a bucket with zero accumulated ground
truth yields recall 0.0 everywhere and AP 0.0 with no exception.  The
code instead divides `float(tp[idx]) / gt_total` unguarded, so any
bucket with zero ground truth and at least one stored prediction raises
ZeroDivisionError: at the bucket `{score: [0.5], fp: [1], tp: [0],
gt: 0}` (scenario D of the spec) both `global_sort` settings produce an
exception (`none`) instead of AP 0.0. -/
theorem claim_C1 :
    (calculate_ap ⟨[(1 : ℚ)/2], [1], [0], 0⟩ false).2 = none ∧
      (calculate_ap ⟨[(1 : ℚ)/2], [1], [0], 0⟩ true).2 = none := by
  constructor
  · rfl
  · rfl

/-- Claim C3: the claim says a zero-area polygon union yields IoU 0.0
without crashing.  The code divides intersection area by union area
unguarded, so whenever some candidate has union area 0 with the query
box, `compute_iou` raises ZeroDivisionError (modelled `none`) instead of
returning 0.0 — for every choice of the shapely area oracles. -/
theorem claim_C3 (P : Type) (interArea unionArea : P → P → ℚ) (box : P)
    (boxes : List P) (b : P) (hb : b ∈ boxes)
    (h0 : unionArea box b = 0) :
    compute_iou interArea unionArea box boxes = none := by
  apply mapOpt_none_of_mem hb
  simp [h0]

/-- Claim C3 witness: a degenerate polygon pair (both intersection and
union area 0, as shapely reports for two identical zero-area polygons)
makes `compute_iou` raise. -/
theorem claim_C3_witness :
    compute_iou (fun _ _ : Unit => (0 : ℚ)) (fun _ _ : Unit => (0 : ℚ))
      () [()] = none :=
  claim_C3 Unit (fun _ _ => 0) (fun _ _ => 0) () [()] ()
    (by simp) rfl

/-- Claim C9: the claim says a detections/scores count mismatch fails
fast with a descriptive error.  The code has no such check: with two
detection boxes and a single score it runs to completion, silently
evaluating only the one score-indexed detection (one appended
score/fp/tp entry) and returning normally. -/
theorem claim_C9 :
    caluclate_tp_fp (fun _ _ : Unit => (0 : ℚ)) (some [(), ()])
        [(1 : ℚ)/2] [] emptyStat ((1 : ℚ)/2) =
      some { score := [(1 : ℚ)/2], fp := [1], tp := [0], gt := 0 } := by
  rfl

/-- Claim C10: a frame with `det_boxes = None` leaves the bucket's
score, tp and fp sequences unchanged, adds the frame's ground-truth
count, and raises no exception. -/
theorem claim_C10 (P : Type) (iou : P → P → ℚ) (det_score : List ℚ)
    (gt_boxes : List P) (stat : ResultStat) (thresh : ℚ) :
    caluclate_tp_fp iou none det_score gt_boxes stat thresh =
      some { score := stat.score, fp := stat.fp, tp := stat.tp,
             gt := stat.gt + gt_boxes.length } := by
  simp [caluclate_tp_fp]

/-- Claim C2 counterexample: with `global_sort = false` the code binds
the bucket's stored `fp`/`tp` lists by reference and overwrites them
with in-place cumulative sums, so `calculate_ap` mutates its input and a
second call returns a different result.  At the bucket
`{score: [0.5, 0.25], fp: [0, 0], tp: [1, 1], gt: 2}` the post-call
bucket differs from the input and the repeated call disagrees. -/
theorem claim_C2_counterexample :
    (calculate_ap ⟨[(1 : ℚ)/2, 1/4], [0, 0], [1, 1], 2⟩ false).1 ≠
        ⟨[(1 : ℚ)/2, 1/4], [0, 0], [1, 1], 2⟩ ∧
      calculate_ap
          ((calculate_ap ⟨[(1 : ℚ)/2, 1/4], [0, 0], [1, 1], 2⟩ false).1)
          false ≠
        calculate_ap ⟨[(1 : ℚ)/2, 1/4], [0, 0], [1, 1], 2⟩ false := by
  have hs1 : (calculate_ap ⟨[(1 : ℚ)/2, 1/4], [0, 0], [1, 1], 2⟩ false).1 =
      ⟨[(1 : ℚ)/2, 1/4], [0, 0], [1, 2], 2⟩ := by
    rw [calculate_ap_false_state _ rfl]
    rfl
  have hs2 : (calculate_ap
      (⟨[(1 : ℚ)/2, 1/4], [0, 0], [1, 2], 2⟩ : ResultStat) false).1 =
      ⟨[(1 : ℚ)/2, 1/4], [0, 0], [1, 3], 2⟩ := by
    rw [calculate_ap_false_state _ rfl]
    rfl
  constructor
  · rw [hs1]
    intro h
    exact absurd (congrArg ResultStat.tp h) (by decide)
  · rw [hs1]
    intro h
    have h1 := congrArg (fun p => p.1) h
    simp only at h1
    rw [hs1, hs2] at h1
    exact absurd (congrArg ResultStat.tp h1) (by decide)

/-- Claim C2 (amended): with `global_sort = true` the AP engine copies
the stored sequences into fresh arrays, so the bucket is unchanged and a
repeated call returns the identical result; with `global_sort = false`
(and the stored `fp`/`tp` of equal length, else the assert fires first)
the call overwrites the bucket's `fp` and `tp` with their cumulative
sums, leaving `score` and `gt` unchanged. -/
theorem claim_C2_amended (stat : ResultStat) :
    (calculate_ap stat true).1 = stat ∧
      calculate_ap ((calculate_ap stat true).1) true =
        calculate_ap stat true ∧
      (stat.fp.length = stat.tp.length →
        (calculate_ap stat false).1 =
          { stat with fp := cumsumList stat.fp,
                      tp := cumsumList stat.tp }) := by
  refine ⟨calculate_ap_true_state stat, ?_, calculate_ap_false_state stat⟩
  rw [calculate_ap_true_state stat]

/-- Claim C2 witness: the amended statement evaluated at a concrete
bucket. -/
theorem claim_C2_witness :
    (calculate_ap ⟨[(1 : ℚ)], [0], [1], 1⟩ true).1 =
        ⟨[(1 : ℚ)], [0], [1], 1⟩ ∧
      calculate_ap ((calculate_ap ⟨[(1 : ℚ)], [0], [1], 1⟩ true).1) true =
        calculate_ap ⟨[(1 : ℚ)], [0], [1], 1⟩ true ∧
      (calculate_ap ⟨[(1 : ℚ)], [0], [1], 1⟩ false).1 =
        { score := [(1 : ℚ)], fp := cumsumList [0], tp := cumsumList [1],
          gt := 1 } := by
  have h := claim_C2_amended ⟨[(1 : ℚ)], [0], [1], 1⟩
  exact ⟨h.1, h.2.1, h.2.2 rfl⟩

/-- Claim C4: the matcher processes detections in descending-score
order; a detection is labelled false-positive exactly when the remaining
ground-truth list is empty or the best IoU against it is below
threshold, and otherwise true-positive, consuming exactly the first
(lowest-index) remaining ground-truth box achieving the maximum IoU;
ground truth is only ever consumed (each box by at most one detection),
and with empty ground truth every detection is false-positive.  Part (f)
ties the loop to the full bucket update of `caluclate_tp_fp`. -/
theorem claim_C4 (P : Type) (iou : P → P → ℚ) (thresh : ℚ) (d : P)
    (ds gts boxes : List P) (scores : List ℚ) (stat : ResultStat) :
    ((argsortDesc scores).map (fun i => scores.getD i 0)).Sorted
      (fun a b => b ≤ a) ∧
    (gts = [] ∨ maxList (gts.map (iou d)) < thresh →
      matchLoop iou thresh (d :: ds) gts =
        (1 :: (matchLoop iou thresh ds gts).1,
         0 :: (matchLoop iou thresh ds gts).2.1,
         (matchLoop iou thresh ds gts).2.2)) ∧
    (¬(gts = [] ∨ maxList (gts.map (iou d)) < thresh) →
      ∃ j, j < gts.length ∧
        (gts.map (iou d)).getD j 0 = maxList (gts.map (iou d)) ∧
        (∀ k < j, (gts.map (iou d)).getD k 0 < maxList (gts.map (iou d))) ∧
        matchLoop iou thresh (d :: ds) gts =
          (0 :: (matchLoop iou thresh ds (gts.eraseIdx j)).1,
           1 :: (matchLoop iou thresh ds (gts.eraseIdx j)).2.1,
           (matchLoop iou thresh ds (gts.eraseIdx j)).2.2)) ∧
    List.Sublist (matchLoop iou thresh ds gts).2.2 gts ∧
    matchLoop iou thresh ds [] =
      (List.replicate ds.length 1, List.replicate ds.length 0, []) ∧
    (scores.length = boxes.length →
      ∃ dets, sortedDets boxes scores = some dets ∧
        dets.length = scores.length ∧
        caluclate_tp_fp iou (some boxes) scores gts stat thresh =
          some { score := stat.score ++
                   (argsortDesc scores).map (fun i => scores.getD i 0)
                 fp := stat.fp ++ (matchLoop iou thresh dets gts).1
                 tp := stat.tp ++ (matchLoop iou thresh dets gts).2.1
                 gt := stat.gt + gts.length }) := by
  refine ⟨sortedScores_sorted scores, ?_, ?_,
    matchLoop_rem_sublist iou thresh ds gts,
    matchLoop_nil_gts iou thresh ds,
    fun hlen => tp_fp_some gts stat thresh hlen⟩
  · intro h
    apply matchLoop_cons_pos
    rcases h with h | h
    · exact Or.inl (by simp [h])
    · exact Or.inr h
  · intro h
    push_neg at h
    have hne : gts ≠ [] := h.1
    have hmne : gts.map (iou d) ≠ [] := by simpa using hne
    refine ⟨argmaxIdx (gts.map (iou d)), ?_, argmaxIdx_getD hmne,
      fun k hk => argmaxIdx_least hk, ?_⟩
    · have := argmaxIdx_lt_length hmne
      simpa using this
    · apply matchLoop_cons_neg
      push_neg
      exact ⟨by simp [h.1], h.2⟩

/-- Claim C4 witness: the matcher at concrete inputs, via the claim's
clauses — the false-positive branch on an empty ground-truth list, the
true-positive branch consuming the best box, and the full bucket
update. -/
theorem claim_C4_witness :
    matchLoop (fun a b : ℕ => if a = b then (1 : ℚ) else 0) ((1 : ℚ)/2)
        (0 :: [1]) [] =
      (1 :: (matchLoop (fun a b : ℕ => if a = b then (1 : ℚ) else 0)
          ((1 : ℚ)/2) [1] []).1,
       0 :: (matchLoop (fun a b : ℕ => if a = b then (1 : ℚ) else 0)
          ((1 : ℚ)/2) [1] []).2.1,
       (matchLoop (fun a b : ℕ => if a = b then (1 : ℚ) else 0)
          ((1 : ℚ)/2) [1] []).2.2) ∧
    (∃ j, j < 2 ∧
      (([5, 0] : List ℕ).map
        ((fun a b : ℕ => if a = b then (1 : ℚ) else 0) 0)).getD j 0 =
        maxList (([5, 0] : List ℕ).map
          ((fun a b : ℕ => if a = b then (1 : ℚ) else 0) 0)) ∧
      (∀ k < j, (([5, 0] : List ℕ).map
        ((fun a b : ℕ => if a = b then (1 : ℚ) else 0) 0)).getD k 0 <
        maxList (([5, 0] : List ℕ).map
          ((fun a b : ℕ => if a = b then (1 : ℚ) else 0) 0))) ∧
      matchLoop (fun a b : ℕ => if a = b then (1 : ℚ) else 0) ((1 : ℚ)/2)
          (0 :: []) [5, 0] =
        (0 :: (matchLoop (fun a b : ℕ => if a = b then (1 : ℚ) else 0)
            ((1 : ℚ)/2) [] (([5, 0] : List ℕ).eraseIdx j)).1,
         1 :: (matchLoop (fun a b : ℕ => if a = b then (1 : ℚ) else 0)
            ((1 : ℚ)/2) [] (([5, 0] : List ℕ).eraseIdx j)).2.1,
         (matchLoop (fun a b : ℕ => if a = b then (1 : ℚ) else 0)
            ((1 : ℚ)/2) [] (([5, 0] : List ℕ).eraseIdx j)).2.2)) ∧
    (∃ dets, sortedDets ([7, 9] : List ℕ) [(1 : ℚ), 2] = some dets ∧
      dets.length = 2 ∧
      caluclate_tp_fp (fun a b : ℕ => if a = b then (1 : ℚ) else 0)
          (some [7, 9]) [(1 : ℚ), 2] [9] emptyStat ((1 : ℚ)/2) =
        some { score := emptyStat.score ++
                 (argsortDesc [(1 : ℚ), 2]).map
                   (fun i => ([(1 : ℚ), 2]).getD i 0)
               fp := emptyStat.fp ++
                 (matchLoop (fun a b : ℕ => if a = b then (1 : ℚ) else 0)
                   ((1 : ℚ)/2) dets [9]).1
               tp := emptyStat.tp ++
                 (matchLoop (fun a b : ℕ => if a = b then (1 : ℚ) else 0)
                   ((1 : ℚ)/2) dets [9]).2.1
               gt := emptyStat.gt + 1 }) := by
  refine ⟨?_, ?_, ?_⟩
  · exact (claim_C4 ℕ (fun a b => if a = b then (1 : ℚ) else 0) ((1 : ℚ)/2)
      0 [1] [] [] [] emptyStat).2.1 (Or.inl rfl)
  · have h := (claim_C4 ℕ (fun a b => if a = b then (1 : ℚ) else 0)
      ((1 : ℚ)/2) 0 [] [5, 0] [] [] emptyStat).2.2.1
    have hc : ¬(([5, 0] : List ℕ) = [] ∨
        maxList (([5, 0] : List ℕ).map
          ((fun a b : ℕ => if a = b then (1 : ℚ) else 0) 0)) <
          (1 : ℚ)/2) := by
      push_neg
      refine ⟨by simp, ?_⟩
      show (1 : ℚ)/2 ≤ maxList [if 0 = 5 then (1 : ℚ) else 0,
        if 0 = 0 then (1 : ℚ) else 0]
      norm_num [maxList]
    obtain ⟨j, h1, h2, h3, h4⟩ := h hc
    exact ⟨j, by simpa using h1, h2, h3, h4⟩
  · have h := (claim_C4 ℕ (fun a b => if a = b then (1 : ℚ) else 0)
      ((1 : ℚ)/2) 0 [] [9] [7, 9] [(1 : ℚ), 2] emptyStat).2.2.2.2.2 rfl
    obtain ⟨dets, h1, h2, h3⟩ := h
    exact ⟨dets, h1, h2, by simpa using h3⟩

/-- Claim C5: `voc_ap` prepends recall 0.0 / precision 0.0 and appends
recall 1.0 / precision 0.0 as sentinels, replaces each precision value
by the maximum of itself and all later-indexed precision values (the
backward envelope, stated spec-side as `specEnvelope`), computes the AP
as the sum over exactly the indices where recall changes of
`(recall[i] - recall[i-1]) * precision[i]` (stated spec-side as
`specApSum`), and on genuine recall/precision inputs (values in
`[0, 1]`) the resulting AP lies in `[0, 1]`. -/
theorem claim_C5 (rec prec : List ℚ) (hlen : rec.length = prec.length)
    (hr : ∀ x ∈ rec, 0 ≤ x ∧ x ≤ 1) (hp : ∀ x ∈ prec, x ≤ 1) :
    (voc_ap rec prec).2.1 = 0 :: (rec ++ [1]) ∧
    (voc_ap rec prec).2.2 = specEnvelope (0 :: (prec ++ [0])) ∧
    (voc_ap rec prec).1 =
      specApSum ((voc_ap rec prec).2.1) ((voc_ap rec prec).2.2) ∧
    0 ≤ (voc_ap rec prec).1 ∧ (voc_ap rec prec).1 ≤ 1 := by
  refine ⟨rfl, suffixMax_eq_specEnvelope _, ?_,
    (voc_ap_bounds rec prec hlen hr hp).1,
    (voc_ap_bounds rec prec hlen hr hp).2⟩
  apply apSum_eq_specApSum
  show (0 :: (rec ++ [1])).length = (suffixMax (0 :: (prec ++ [0]))).length
  rw [length_suffixMax]
  simp [hlen]

/-- Claim C5 witness: the statement evaluated at the concrete curve
`rec = [1/2, 1]`, `prec = [1, 1/2]`. -/
theorem claim_C5_witness :
    (voc_ap [(1 : ℚ)/2, 1] [(1 : ℚ), 1/2]).2.1 =
        0 :: ([(1 : ℚ)/2, 1] ++ [1]) ∧
      (voc_ap [(1 : ℚ)/2, 1] [(1 : ℚ), 1/2]).2.2 =
        specEnvelope (0 :: ([(1 : ℚ), 1/2] ++ [0])) ∧
      (voc_ap [(1 : ℚ)/2, 1] [(1 : ℚ), 1/2]).1 =
        specApSum ((voc_ap [(1 : ℚ)/2, 1] [(1 : ℚ), 1/2]).2.1)
          ((voc_ap [(1 : ℚ)/2, 1] [(1 : ℚ), 1/2]).2.2) ∧
      0 ≤ (voc_ap [(1 : ℚ)/2, 1] [(1 : ℚ), 1/2]).1 ∧
      (voc_ap [(1 : ℚ)/2, 1] [(1 : ℚ), 1/2]).1 ≤ 1 :=
  claim_C5 [(1 : ℚ)/2, 1] [(1 : ℚ), 1/2] rfl
    (by
      intro x hx
      rcases List.mem_cons.mp hx with h | h
      · rw [h]; norm_num
      · rw [List.mem_singleton] at h
        rw [h]; norm_num)
    (by
      intro x hx
      rcases List.mem_cons.mp hx with h | h
      · rw [h]
      · rw [List.mem_singleton] at h
        rw [h]; norm_num)

/-- Claim C7: starting from the empty bucket, after any sequence of
well-formed accumulate calls (matching detection/score counts per frame)
no exception has occurred, the three stored sequences have equal
lengths, and every stored prediction is flagged exactly one of TP or FP
(`tp[i] + fp[i] = 1`). -/
theorem claim_C7 (P : Type) (iou : P → P → ℚ) (thresh : ℚ)
    (frames : List (Frame P))
    (hwf : ∀ f ∈ frames, ∀ boxes, f.det = some boxes →
      f.scores.length = boxes.length) :
    ∃ s', runFrames iou thresh emptyStat frames = some s' ∧
      s'.score.length = s'.tp.length ∧ s'.tp.length = s'.fp.length ∧
      ∀ i < s'.tp.length, s'.tp.getD i 0 + s'.fp.getD i 0 = 1 := by
  suffices h : ∀ (fs : List (Frame P)) (s : ResultStat), statInv s →
      (∀ f ∈ fs, ∀ boxes, f.det = some boxes →
        f.scores.length = boxes.length) →
      ∃ s', runFrames iou thresh s fs = some s' ∧ statInv s' by
    obtain ⟨s', h1, h2⟩ := h frames emptyStat statInv_empty hwf
    exact ⟨s', h1, h2.1, h2.2.1, h2.2.2⟩
  intro fs
  induction fs with
  | nil => exact fun s hs _ => ⟨s, rfl, hs⟩
  | cons f fs ih =>
    intro s hs hwf'
    obtain ⟨s1, hcall, hinv1⟩ := @tp_fp_preserves_inv P iou f.det
      f.scores f.gts s thresh hs (hwf' f (by simp))
    obtain ⟨s', hrun, hinv'⟩ := ih s1 hinv1
      (fun g hg => hwf' g (List.mem_cons_of_mem _ hg))
    refine ⟨s', ?_, hinv'⟩
    simp only [runFrames, hcall]
    exact hrun

/-- Claim C7 witness: a concrete two-frame run (one frame with a
detection, one empty frame). -/
theorem claim_C7_witness :
    ∃ s', runFrames (fun _ _ : Unit => (1 : ℚ)) ((1 : ℚ)/2) emptyStat
        [⟨some [()], [(1 : ℚ)/2], [()]⟩, ⟨none, [], [()]⟩] = some s' ∧
      s'.score.length = s'.tp.length ∧ s'.tp.length = s'.fp.length ∧
      ∀ i < s'.tp.length, s'.tp.getD i 0 + s'.fp.getD i 0 = 1 := by
  apply claim_C7
  intro f hf boxes hb
  rcases List.mem_cons.mp hf with h | h
  · subst h
    simp only at hb
    injection hb with hb'
    rw [← hb']
    rfl
  · rw [List.mem_singleton] at h
    rw [h] at hb
    simp at hb

/-- Claim C8: for a well-formed frame (matching counts), the matcher
call succeeds and appends flag lists with `sum(tp) ≤ len(groundTruth)`,
`sum(tp) + sum(fp) = number of detections`, and adds exactly
`len(groundTruth)` to the running ground-truth count. -/
theorem claim_C8 (P : Type) (iou : P → P → ℚ) (thresh : ℚ)
    (boxes : List P) (scores : List ℚ) (gts : List P) (stat : ResultStat)
    (hlen : scores.length = boxes.length) :
    ∃ newFp newTp,
      caluclate_tp_fp iou (some boxes) scores gts stat thresh =
        some { score := stat.score ++
                 (argsortDesc scores).map (fun i => scores.getD i 0)
               fp := stat.fp ++ newFp
               tp := stat.tp ++ newTp
               gt := stat.gt + gts.length } ∧
      newTp.sum ≤ gts.length ∧
      newTp.sum + newFp.sum = boxes.length ∧
      newTp.length = boxes.length ∧ newFp.length = boxes.length := by
  obtain ⟨dets, hsd, hdl, heq⟩ := @tp_fp_some P iou boxes scores gts stat thresh hlen
  refine ⟨(matchLoop iou thresh dets gts).1,
    (matchLoop iou thresh dets gts).2.1, heq,
    matchLoop_sum_tp_le iou thresh dets gts, ?_, ?_, ?_⟩
  · rw [matchLoop_sum_add iou thresh dets gts, hdl, hlen]
  · rw [(matchLoop_lengths iou thresh dets gts).2, hdl, hlen]
  · rw [(matchLoop_lengths iou thresh dets gts).1, hdl, hlen]

/-- Claim C8 witness: the statement evaluated at a concrete frame with
two detections and one ground-truth box. -/
theorem claim_C8_witness :
    ∃ newFp newTp,
      caluclate_tp_fp (fun a b : ℕ => if a = b then (1 : ℚ) else 0)
          (some [4, 6]) [(1 : ℚ), 2] [6] emptyStat ((1 : ℚ)/2) =
        some { score := emptyStat.score ++
                 (argsortDesc [(1 : ℚ), 2]).map
                   (fun i => ([(1 : ℚ), 2]).getD i 0)
               fp := emptyStat.fp ++ newFp
               tp := emptyStat.tp ++ newTp
               gt := emptyStat.gt + ([6] : List ℕ).length }
        ∧ newTp.sum ≤ ([6] : List ℕ).length ∧
        newTp.sum + newFp.sum = 2 ∧
        newTp.length = 2 ∧ newFp.length = 2 := by
  have h := claim_C8 ℕ (fun a b => if a = b then (1 : ℚ) else 0)
    ((1 : ℚ)/2) [4, 6] [(1 : ℚ), 2] [6] emptyStat rfl
  exact h
